import Mathlib

/-!
Verification of the Smart Export plugin's specification against its code.

The core breadth-first traversal engine is modelled from the spec (its
source file is not part of the available sources; only its unit tests and
callers are).  The UI depth handlers, the renderer dispatch, the token
estimator and the Obsidian API wrapper are embedded from the TypeScript
sources.
-/

namespace SmartExport

/-- Modelled from the spec: the Note Resolution Provider interface of §6
(the concrete binding ObsidianAPI-to-engine is outside the core).  A note
is identified by its stable identifier string; `notes` enumerates the
identifiers of existing notes (resolveRoot succeeds exactly on them),
`content` is readContent, `refs` is outgoingReferences in document order,
`resolve` is resolveReference (reference string, source identifier), and
`displayTitle` is displayTitle. -/
structure Provider where
  notes : List String
  content : String → String
  refs : String → List String
  resolve : String → String → Option String
  displayTitle : String → String

/-- Modelled from the spec: ExportNode of §3 (identifier, title, depth,
includeContent, optional content, ordered children). -/
structure ExportNode where
  identifier : String
  title : String
  depth : Nat
  includeContent : Bool
  content : Option String
  children : List ExportNode
deriving Repr

/-- Modelled from the spec: the ephemeral traversal state of §3 — the FIFO
`queue` of (identifier, depth) work items, the discovery `order` (whose
identifiers form the `visited` set: identifiers already admitted into the
tree, with the depth at which each was admitted), the parent-to-child
`edges` in creation order (the spec's append of each child into its
parent's ordered children list), and the deduplicated `missing` reference
strings in first-encounter order. -/
structure BFSState where
  queue : List (String × Nat)
  order : List (String × Nat)
  edges : List (String × String)
  missing : List String
deriving Repr, DecidableEq

/-- The visited set: identifiers already admitted into the tree. -/
def idsOf (st : BFSState) : List String := st.order.map Prod.fst

/-- Modelled from the spec: processing of one reference of the note `src`
dequeued at depth `d` (§4.1).  If unresolved, the raw reference text is
recorded in `missing` (idempotently); if resolved to an already-visited
identifier, it is skipped; otherwise the target is marked visited at depth
`d+1`, appended to `src`'s children (the edge list) and enqueued. -/
def processRef (P : Provider) (src : String) (d : Nat) (st : BFSState) (r : String) :
    BFSState :=
  match P.resolve r src with
  | none =>
      if r ∈ st.missing then st
      else { st with missing := st.missing ++ [r] }
  | some t =>
      if t ∈ idsOf st then st
      else
        { st with
            order := st.order ++ [(t, d + 1)]
            edges := st.edges ++ [(src, t)]
            queue := st.queue ++ [(t, d + 1)] }

/-- Modelled from the spec: expansion of a dequeued note — its outgoing
references are fetched in document order and processed in order. -/
def expandNote (P : Provider) (src : String) (d : Nat) (st : BFSState) : BFSState :=
  (P.refs src).foldl (processRef P src d) st

/-- Modelled from the spec: the BFS loop of §4.1 — the queue is processed
in strict FIFO order; a dequeued item at depth `d ≥ titleDepth` is not
expanded (leaf by depth exhaustion).  Fuel makes the recursion structural;
`traversalFuel` below always suffices for well-formed providers. -/
def bfsLoop (P : Provider) (titleDepth : Nat) : Nat → BFSState → BFSState
  | 0, st => st
  | fuel + 1, st =>
    match st.queue with
    | [] => st
    | (src, d) :: rest =>
      if titleDepth ≤ d then
        bfsLoop P titleDepth fuel { st with queue := rest }
      else
        bfsLoop P titleDepth fuel (expandNote P src d { st with queue := rest })

/-- The ordered children identifiers of `p` recorded in the edge list. -/
def childIds (edges : List (String × String)) (p : String) : List String :=
  (edges.filter (fun e => e.fst == p)).map Prod.snd

/-- Modelled from the spec: materialisation of the ExportNode tree from
the recorded parent-to-child edges.  A node at depth `d` has
`includeContent = (d ≤ contentDepth)` and its content is read iff
`includeContent` (§4.1); children are attached in creation order. -/
def buildNode (P : Provider) (contentDepth : Nat) (edges : List (String × String)) :
    Nat → String → Nat → ExportNode
  | 0, v, d =>
    { identifier := v
      title := P.displayTitle v
      depth := d
      includeContent := decide (d ≤ contentDepth)
      content := if d ≤ contentDepth then some (P.content v) else none
      children := [] }
  | fuel + 1, v, d =>
    { identifier := v
      title := P.displayTitle v
      depth := d
      includeContent := decide (d ≤ contentDepth)
      content := if d ≤ contentDepth then some (P.content v) else none
      children := (childIds edges v).map (fun c => buildNode P contentDepth edges fuel c (d + 1)) }

/-- Modelled from the spec: the initial traversal state — the root is
admitted at depth 0 and enqueued. -/
def initState (root : String) : BFSState :=
  { queue := [(root, 0)], order := [(root, 0)], edges := [], missing := [] }

/-- Fuel bound: one more than the number of existing notes, enough to
drain the queue on any well-formed provider. -/
def traversalFuel (P : Provider) : Nat := P.notes.length + 1

/-- The final traversal state of traverse(root). -/
def finalState (P : Provider) (titleDepth : Nat) (root : String) : BFSState :=
  bfsLoop P titleDepth (traversalFuel P) (initState root)

/-- Modelled from the spec: the pair a completed call to `traverse`
exposes — the optional tree root (absent exactly when the root identifier
does not resolve) and the missing-notes list of that same walk (what
getMissingNotes() returns for the most recently completed traversal). -/
structure TraverseResult where
  tree : Option ExportNode
  missingNotes : List String
deriving Repr

/-- Modelled from the spec: traverse(rootIdentifier) of §4.1.  A root that
does not resolve yields an absent tree and an empty missing list; otherwise
the BFS loop runs to completion and the tree is materialised from the
recorded edges. -/
def traverse (P : Provider) (contentDepth titleDepth : Nat) (root : String) :
    TraverseResult :=
  if root ∈ P.notes then
    let st := finalState P titleDepth root
    { tree := some (buildNode P contentDepth st.edges (traversalFuel P) root 0)
      missingNotes := st.missing }
  else
    { tree := none, missingNotes := [] }

/-- Modelled from the spec: getMissingNotes() — the unresolved-reference
strings of the most recently completed traversal. -/
def getMissingNotes (P : Provider) (contentDepth titleDepth : Nat) (root : String) :
    List String :=
  (traverse P contentDepth titleDepth root).missingNotes

/-- The scenario graph of the spec (§8) and of the unit tests: root links
to A, B and the unresolved "missing"; A links to C and D; D links back to
A.  References resolve to the note of the same name. -/
def scenarioProvider : Provider :=
  { notes := ["root", "A", "B", "C", "D"]
    content := fun v =>
      if v == "root" then "[[A]] [[B]] [[missing]]"
      else if v == "A" then "[[C]] [[D]]"
      else if v == "D" then "[[A]]"
      else ""
    refs := fun v =>
      if v == "root" then ["A", "B", "missing"]
      else if v == "A" then ["C", "D"]
      else if v == "D" then ["A"]
      else []
    resolve := fun r _ =>
      if (["root", "A", "B", "C", "D"] : List String).contains r then some r else none
    displayTitle := fun v => v }

/-- The two-node cycle graph of the spec (§8): cycle1 and cycle2 reference
each other. -/
def cycleProvider : Provider :=
  { notes := ["cycle1", "cycle2"]
    content := fun v =>
      if v == "cycle1" then "[[cycle2]]"
      else if v == "cycle2" then "[[cycle1]]"
      else ""
    refs := fun v =>
      if v == "cycle1" then ["cycle2"]
      else if v == "cycle2" then ["cycle1"]
      else []
    resolve := fun r _ =>
      if (["cycle1", "cycle2"] : List String).contains r then some r else none
    displayTitle := fun v => v }

/-- All nodes of an export tree: the root and, recursively, all nodes of
its children. -/
def allNodes : ExportNode → List ExportNode
  | ⟨i, t, d, ic, c, ch⟩ =>
    ⟨i, t, d, ic, c, ch⟩ :: ch.attach.flatMap (fun x => allNodes x.val)
decreasing_by
  simp_wf
  have h := List.sizeOf_lt_of_mem x.property
  omega

/-- The link graph induced by the Provider: the successors of `v` are the
targets its references resolve to, in document order. -/
def resolvedRefs (P : Provider) (v : String) : List String :=
  (P.refs v).filterMap (fun r => P.resolve r v)

/-- Reachability within `n` reference-hops in the induced link graph. -/
def reachInB (P : Provider) : Nat → String → String → Bool
  | 0, u, v => u == v
  | n + 1, u, v => u == v || (resolvedRefs P u).any (fun w => reachInB P n w v)

/-- Existence of a path of exactly `n` reference-hops. -/
def pathExactB (P : Provider) : Nat → String → String → Bool
  | 0, u, v => u == v
  | n + 1, u, v => (resolvedRefs P u).any (fun w => pathExactB P n w v)

/-- The induced link graph is acyclic: no note lies on a positive-length
cycle (lengths up to the number of notes suffice). -/
def AcyclicB (P : Provider) : Prop :=
  ∀ v ∈ P.notes, ∀ n < P.notes.length, pathExactB P (n + 1) v v = false

/-- Well-formedness of a provider: every reference that resolves does so
to an existing note. -/
def ResolveClosed (P : Provider) : Prop :=
  ∀ r s t, P.resolve r s = some t → t ∈ P.notes

/-- The expected tree for the scenario graph with contentDepth 1 and
titleDepth 2. -/
def scenarioExpectedTree : ExportNode :=
  { identifier := "root", title := "root", depth := 0, includeContent := true
    content := some "[[A]] [[B]] [[missing]]"
    children :=
      [{ identifier := "A", title := "A", depth := 1, includeContent := true
         content := some "[[C]] [[D]]"
         children :=
           [{ identifier := "C", title := "C", depth := 2, includeContent := false
              content := none, children := [] },
            { identifier := "D", title := "D", depth := 2, includeContent := false
              content := none, children := [] }] },
       { identifier := "B", title := "B", depth := 1, includeContent := true
         content := some ""
         children := [] }] }

/-- The expected tree for the two-node cycle with contentDepth 1 and
titleDepth 2. -/
def cycleExpectedTree : ExportNode :=
  { identifier := "cycle1", title := "cycle1", depth := 0, includeContent := true
    content := some "[[cycle2]]"
    children :=
      [{ identifier := "cycle2", title := "cycle2", depth := 1, includeContent := true
         content := some "[[cycle1]]"
         children := [] }] }

/-- The depth pair adjusted by the depth sliders of the export modal and
by the default-depth sliders of the settings tab. -/
structure DepthState where
  contentDepth : Nat
  titleDepth : Nat
deriving Repr, DecidableEq

/-- The export modal's content-depth slider onChange handler
(ExportModal.onOpen): sets contentDepth to the new value and raises
titleDepth to it when titleDepth fell below. -/
def contentSliderChange (s : DepthState) (value : Nat) : DepthState :=
  let s1 : DepthState := { s with contentDepth := value }
  if s1.titleDepth < s1.contentDepth then { s1 with titleDepth := s1.contentDepth } else s1

/-- The export modal's title-depth slider onChange handler
(ExportModal.onOpen): sets titleDepth to the new value and lowers
contentDepth to it when titleDepth fell below. -/
def titleSliderChange (s : DepthState) (value : Nat) : DepthState :=
  let s1 : DepthState := { s with titleDepth := value }
  if s1.titleDepth < s1.contentDepth then { s1 with contentDepth := s1.titleDepth } else s1

/-- The settings tab's default-content-depth onChange handler
(SmartExportSettingTab.display): stores the new value and raises the
default title depth to it when it fell below. -/
def settingsContentChange (s : DepthState) (value : Nat) : DepthState :=
  let s1 : DepthState := { s with contentDepth := value }
  if s1.titleDepth < value then { s1 with titleDepth := value } else s1

/-- The settings tab's default-title-depth onChange handler
(SmartExportSettingTab.display): clamps the new value up to the default
content depth before storing it. -/
def settingsTitleChange (s : DepthState) (value : Nat) : DepthState :=
  let v := if value < s.contentDepth then s.contentDepth else value
  { s with titleDepth := v }

/-- The three output formats of the export modal's dropdown. -/
inductive ExportFormat where
  | xml
  | llmMarkdown
  | printFriendlyMarkdown
deriving Repr, DecidableEq

/-- A renderer invocation with exactly the arguments the corresponding
call site in ExportModal.getExportData passes. -/
inductive RendererCall where
  | xml (tree : ExportNode) (vaultName : String) (missingNotesCount : Nat)
  | llmMarkdown (tree : ExportNode) (vaultName : String) (missingNotesCount : Nat)
  | printFriendly (tree : ExportNode)
deriving Repr

/-- The switch over the selected export format in ExportModal.getExportData:
XMLExporter().export(exportTree, vaultPath, missingNotesCount),
LlmMarkdownExporter().export(exportTree, vaultPath, missingNotesCount), or
PrintFriendlyMarkdownExporter().export(exportTree). -/
def rendererCall (fmt : ExportFormat) (tree : ExportNode) (vaultName : String)
    (missingNotesCount : Nat) : RendererCall :=
  match fmt with
  | .xml => .xml tree vaultName missingNotesCount
  | .llmMarkdown => .llmMarkdown tree vaultName missingNotesCount
  | .printFriendlyMarkdown => .printFriendly tree

/-- Whether a renderer invocation received `n` as its missing-note-count
argument.  The print-friendly call site passes no such argument. -/
def carriesMissingCount : RendererCall → Nat → Bool
  | .xml _ _ m, n => m == n
  | .llmMarkdown _ _ m, n => m == n
  | .printFriendly _, _ => false

/-- ExportModal.getExportData: with no selected file the result is absent;
otherwise the graph is traversed from the selected file, an absent tree
aborts, and the renderer for the selected format is invoked with the
missing-note count of the traversal just performed. -/
def getExportData (P : Provider) (contentDepth titleDepth : Nat)
    (selectedFile : Option String) (fmt : ExportFormat) (vaultName : String) :
    Option RendererCall :=
  match selectedFile with
  | none => none
  | some path =>
    let res := traverse P contentDepth titleDepth path
    match res.tree with
    | none => none
    | some tree => some (rendererCall fmt tree vaultName res.missingNotes.length)

/-- ExportModal.estimateTokens: Math.ceil(text.length / 4).  The division
is exact in the rationals and then rounded up, matching the JavaScript
floating-point computation exactly for any realistic length. -/
def estimateTokens (text : String) : Nat :=
  Nat.ceil ((text.length : ℚ) / 4)

/-- A file handle of the host application, as far as the wrapper uses it. -/
structure TFile where
  path : String
  basename : String
deriving Repr, DecidableEq

/-- The slice of the host application the ObsidianAPI wrapper touches for
content reads: vault.getFileByPath and vault.cachedRead. -/
structure VaultModel where
  getFileByPath : String → Option TFile
  cachedRead : TFile → String

/-- ObsidianAPI.getTFile: app.vault.getFileByPath(path). -/
def getTFile (v : VaultModel) (path : String) : Option TFile :=
  v.getFileByPath path

/-- ObsidianAPI.getNoteContent: returns "" when getTFile yields no file,
otherwise the cached read of the file. -/
def getNoteContent (v : VaultModel) (path : String) : String :=
  match getTFile v path with
  | none => ""
  | some f => v.cachedRead f

/-- A vault in which no path resolves to a file. -/
def emptyVault : VaultModel :=
  { getFileByPath := fun _ => none, cachedRead := fun _ => "" }

/-- A vault in which every path resolves to a file whose content is empty. -/
def emptyFileVault : VaultModel :=
  { getFileByPath := fun p => some { path := p, basename := p }, cachedRead := fun _ => "" }

/-- The identifiers of all nodes of an export tree. -/
def treeIds (t : ExportNode) : List String :=
  (allNodes t).map ExportNode.identifier

/-- The acyclic graph of the queue-management unit test: parent links to
child1 and child2; child1 links to grandchild. -/
def treeProvider : Provider :=
  { notes := ["parent", "child1", "child2", "grandchild"]
    content := fun v =>
      if v == "parent" then "[[child1]] [[child2]]"
      else if v == "child1" then "[[grandchild]]"
      else ""
    refs := fun v =>
      if v == "parent" then ["child1", "child2"]
      else if v == "child1" then ["grandchild"]
      else []
    resolve := fun r _ =>
      if (["parent", "child1", "child2", "grandchild"] : List String).contains r then some r
      else none
    displayTitle := fun v => v }

/-- The expected tree for the acyclic test graph with contentDepth 1 and
titleDepth 2. -/
def treeExpectedTree : ExportNode :=
  { identifier := "parent", title := "parent", depth := 0, includeContent := true
    content := some "[[child1]] [[child2]]"
    children :=
      [{ identifier := "child1", title := "child1", depth := 1, includeContent := true
         content := some "[[grandchild]]"
         children :=
           [{ identifier := "grandchild", title := "grandchild", depth := 2
              includeContent := false, content := none, children := [] }] },
       { identifier := "child2", title := "child2", depth := 1, includeContent := true
         content := some ""
         children := [] }] }

/-- The inductive invariant of the BFS loop, for a fixed provider, title
depth and root: the visited identifiers are duplicate-free and among the
notes, the queue is the unexpanded suffix of the discovery order, depths
along the discovery order are monotone with unit steps and bounded by the
title depth, every discovered note is reachable from the root within its
recorded depth, expanded notes have all their resolved references
discovered (within one extra hop) and all their unresolved references
recorded, the missing list is duplicate-free and exactly sourced from
expanded notes, and the edge list links each discovered non-root note to
the already-discovered note that first referenced it. -/
structure TraversalInv (P : Provider) (titleDepth : Nat) (root : String)
    (st : BFSState) : Prop where
  nodupIds : (idsOf st).Nodup
  queueSuffix : ∃ k, st.queue = st.order.drop k
  orderMono : List.Chain' (fun a b => a.2 ≤ b.2) st.order
  orderStep : List.Chain' (fun a b => b.2 ≤ a.2 + 1) st.order
  queueSpread : ∀ x ∈ st.queue, ∀ y ∈ st.queue, x.2 ≤ y.2 + 1
  headRoot : st.order.head? = some (root, 0)
  sound : ∀ x ∈ st.order, reachInB P x.2 root x.1 = true
  depthLe : ∀ x ∈ st.order, x.2 ≤ titleDepth
  idsSub : ∀ v ∈ idsOf st, v ∈ P.notes
  processedChildren : ∀ x ∈ st.order, x ∉ st.queue → x.2 < titleDepth →
    ∀ r ∈ P.refs x.1, ∀ t, P.resolve r x.1 = some t → ∃ d' ≤ x.2 + 1, (t, d') ∈ st.order
  processedMissing : ∀ x ∈ st.order, x ∉ st.queue → x.2 < titleDepth →
    ∀ r ∈ P.refs x.1, P.resolve r x.1 = none → r ∈ st.missing
  missingNodup : st.missing.Nodup
  missingSrc : ∀ r ∈ st.missing, ∃ x ∈ st.order, x ∉ st.queue ∧ x.2 < titleDepth ∧
    r ∈ P.refs x.1 ∧ P.resolve r x.1 = none
  edgesOrder : ∀ e ∈ st.edges, ∃ d, (e.1, d) ∈ st.order ∧ (e.2, d + 1) ∈ st.order
  edgesTargetNodup : (st.edges.map Prod.snd).Nodup
  edgesTargetMem : ∀ e ∈ st.edges, e.2 ∈ idsOf st
  rootNotTarget : root ∉ st.edges.map Prod.snd
  orderParent : ∀ x ∈ st.order, x.1 = root ∨
    ∃ s d, (s, x.1) ∈ st.edges ∧ (s, d) ∈ st.order ∧ x.2 = d + 1

/-- C1: the scenario traversal with contentDepth 1 and titleDepth 2 — the
root's children are A then B, A's children are C then D, C and D carry no
content and have includeContent false, and "missing" is reported exactly
once. -/
theorem claim1_scenario_traversal :
    (traverse scenarioProvider 1 2 "root").tree = some scenarioExpectedTree ∧
    scenarioExpectedTree.children.map ExportNode.identifier = ["A", "B"] ∧
    (scenarioExpectedTree.children.map fun c => c.children.map ExportNode.identifier) =
      [["C", "D"], []] ∧
    (scenarioExpectedTree.children.map fun c =>
      c.children.map fun g => (g.includeContent, g.content)) =
      [[(false, none), (false, none)], []] ∧
    (getMissingNotes scenarioProvider 1 2 "root").count "missing" = 1 ∧
    getMissingNotes scenarioProvider 1 2 "root" = ["missing"] :=
  ⟨rfl, rfl, rfl, rfl, rfl, rfl⟩

/-- C3: the two-node cycle — traverse(cycle1) yields cycle1 at depth 0
with the single child cycle2 at depth 1, and cycle2 has no children: the
back-reference to the visited cycle1 is suppressed. -/
theorem claim3_cycle_traversal :
    (traverse cycleProvider 1 2 "cycle1").tree = some cycleExpectedTree ∧
    cycleExpectedTree.depth = 0 ∧
    cycleExpectedTree.children.map ExportNode.identifier = ["cycle2"] ∧
    (cycleExpectedTree.children.map fun c => (c.depth, c.children.length)) = [(1, 0)] :=
  ⟨rfl, rfl, rfl, rfl⟩

/-- C6: a root identifier that does not resolve to a note yields an
absent tree, no error and an empty missing-notes list. -/
theorem claim6_root_not_found (P : Provider) (contentDepth titleDepth : Nat)
    (root : String) (h : root ∉ P.notes) :
    (traverse P contentDepth titleDepth root).tree = none ∧
    getMissingNotes P contentDepth titleDepth root = [] := by
  constructor
  · simp [traverse, h]
  · simp [getMissingNotes, traverse, h]

/-- Witness for C6 at a concrete nonexistent root. -/
theorem claim6_root_not_found_witness :
    (traverse cycleProvider 1 2 "nonexistent").tree = none ∧
    getMissingNotes cycleProvider 1 2 "nonexistent" = [] :=
  claim6_root_not_found cycleProvider 1 2 "nonexistent" (by decide)

/-- C7: every change handler of the export modal's depth sliders and of
the settings tab's default-depth sliders re-establishes
titleDepth ≥ contentDepth, whatever the previous state and the new slider
value. -/
theorem claim7_ui_depth_invariant :
    ∀ (s : DepthState) (value : Nat),
      (contentSliderChange s value).contentDepth ≤ (contentSliderChange s value).titleDepth ∧
      (titleSliderChange s value).contentDepth ≤ (titleSliderChange s value).titleDepth ∧
      (settingsContentChange s value).contentDepth ≤ (settingsContentChange s value).titleDepth ∧
      (settingsTitleChange s value).contentDepth ≤ (settingsTitleChange s value).titleDepth := by
  intro s value
  refine ⟨?_, ?_, ?_, ?_⟩ <;>
    simp only [contentSliderChange, titleSliderChange, settingsContentChange,
      settingsTitleChange] <;>
    split <;> simp_all

/-- C8 fails as stated: with the print-friendly format selected, the
renderer call carries no missing-note count even though the traversal just
performed reported one missing note. -/
theorem claim8_counterexample :
    (getMissingNotes scenarioProvider 1 2 "root").length = 1 ∧
    (getExportData scenarioProvider 1 2 (some "root") ExportFormat.printFriendlyMarkdown
        "vault").map (fun call => carriesMissingCount call 1) = some false :=
  ⟨rfl, rfl⟩

/-- C8 amended: on a successful export the XML and LLM-markdown renderers
receive the missing-note count of the traversal just performed along with
the tree, while the print-friendly renderer receives only the tree. -/
theorem claim8_renderer_arguments (P : Provider) (contentDepth titleDepth : Nat)
    (path vaultName : String) (fmt : ExportFormat) (call : RendererCall)
    (h : getExportData P contentDepth titleDepth (some path) fmt vaultName = some call) :
    ((fmt = ExportFormat.xml ∨ fmt = ExportFormat.llmMarkdown) →
      carriesMissingCount call (getMissingNotes P contentDepth titleDepth path).length = true) ∧
    (fmt = ExportFormat.printFriendlyMarkdown →
      ∃ t, (traverse P contentDepth titleDepth path).tree = some t ∧
        call = RendererCall.printFriendly t) := by
  simp only [getExportData] at h
  cases ht : (traverse P contentDepth titleDepth path).tree with
  | none => simp [ht] at h
  | some t =>
    simp only [ht, Option.some.injEq] at h
    subst h
    cases fmt <;>
      simp [rendererCall, carriesMissingCount, getMissingNotes, ht]

/-- Witness for the amended C8 at the scenario graph with the XML format. -/
theorem claim8_renderer_arguments_witness :
    ((ExportFormat.xml = ExportFormat.xml ∨ ExportFormat.xml = ExportFormat.llmMarkdown) →
      carriesMissingCount (RendererCall.xml scenarioExpectedTree "vault" 1)
        (getMissingNotes scenarioProvider 1 2 "root").length = true) ∧
    (ExportFormat.xml = ExportFormat.printFriendlyMarkdown →
      ∃ t, (traverse scenarioProvider 1 2 "root").tree = some t ∧
        RendererCall.xml scenarioExpectedTree "vault" 1 = RendererCall.printFriendly t) :=
  claim8_renderer_arguments scenarioProvider 1 2 "root" "vault" ExportFormat.xml
    (RendererCall.xml scenarioExpectedTree "vault" 1) rfl

/-- C9 fails as stated: a five-character output is estimated at 2 tokens,
but its character count divided by 4 is 1 in integer arithmetic and 5/4
exactly — the code takes the ceiling. -/
theorem claim9_counterexample :
    estimateTokens "aaaaa" = 2 ∧
    "aaaaa".length / 4 = 1 ∧
    ((("aaaaa".length : ℚ)) / 4 ≠ ((estimateTokens "aaaaa" : ℚ))) := by
  have h5 : "aaaaa".length = 5 := rfl
  have hceil : estimateTokens "aaaaa" = 2 := by
    simp only [estimateTokens, h5]
    rw [Nat.ceil_eq_iff (by norm_num)]
    norm_num
  refine ⟨hceil, rfl, ?_⟩
  rw [hceil, h5]
  norm_num

/-- C9 amended: the reported token estimate is the character count divided
by 4 rounded up to the next integer, i.e. (length + 3) / 4 in integer
arithmetic. -/
theorem claim9_token_estimate (text : String) :
    estimateTokens text = (text.length + 3) / 4 ∧
    text.length ≤ 4 * estimateTokens text ∧
    4 * estimateTokens text < text.length + 4 := by
  have h1 : ((text.length : ℚ)) / 4 ≤ ((estimateTokens text : ℚ)) := Nat.le_ceil _
  have h2 : ((estimateTokens text : ℚ)) < (text.length : ℚ) / 4 + 1 :=
    Nat.ceil_lt_add_one (by positivity)
  have h4 : (4 : ℚ) * ((text.length : ℚ) / 4) = (text.length : ℚ) := by
    field_simp
  have hle : text.length ≤ 4 * estimateTokens text := by
    have : (text.length : ℚ) ≤ 4 * ((estimateTokens text : ℚ)) := by linarith
    exact_mod_cast this
  have hlt : 4 * estimateTokens text < text.length + 4 := by
    have : 4 * ((estimateTokens text : ℚ)) < (text.length : ℚ) + 4 := by linarith
    exact_mod_cast this
  exact ⟨by omega, hle, hlt⟩

/-- C10: a path that does not resolve to a file makes getNoteContent
return the empty string, indistinguishable from reading an existing file
with empty content. -/
theorem claim10_missing_file_content (v : VaultModel) (path : String) :
    (getTFile v path = none → getNoteContent v path = "") ∧
    (∀ f, getTFile v path = some f → v.cachedRead f = "" → getNoteContent v path = "") := by
  constructor
  · intro h
    simp [getNoteContent, h]
  · intro f h hc
    simp [getNoteContent, h, hc]

/-- Witness for C10: an unresolvable path and an existing empty file both
read as the empty string. -/
theorem claim10_missing_file_content_witness :
    getNoteContent emptyVault "missing.md" = "" ∧
    getNoteContent emptyFileVault "note.md" = "" :=
  ⟨(claim10_missing_file_content emptyVault "missing.md").1 rfl,
   (claim10_missing_file_content emptyFileVault "note.md").2
     { path := "note.md", basename := "note.md" } rfl rfl⟩

theorem mem_allNodes {m n : ExportNode} :
    m ∈ allNodes n ↔ m = n ∨ ∃ c ∈ n.children, m ∈ allNodes c := by
  cases n with
  | mk i t d ic c ch =>
    rw [allNodes]
    simp [List.mem_flatMap]

theorem buildNode_identifier (P : Provider) (cD : Nat) (edges : List (String × String))
    (f : Nat) (v : String) (d : Nat) :
    (buildNode P cD edges f v d).identifier = v := by
  cases f <;> rfl

theorem buildNode_depth (P : Provider) (cD : Nat) (edges : List (String × String))
    (f : Nat) (v : String) (d : Nat) :
    (buildNode P cD edges f v d).depth = d := by
  cases f <;> rfl

theorem buildNode_includeContent (P : Provider) (cD : Nat) (edges : List (String × String))
    (f : Nat) (v : String) (d : Nat) :
    (buildNode P cD edges f v d).includeContent = decide (d ≤ cD) := by
  cases f <;> rfl

theorem buildNode_content (P : Provider) (cD : Nat) (edges : List (String × String))
    (f : Nat) (v : String) (d : Nat) :
    (buildNode P cD edges f v d).content =
      if d ≤ cD then some (P.content v) else none := by
  cases f <;> rfl

theorem buildNode_children_zero (P : Provider) (cD : Nat) (edges : List (String × String))
    (v : String) (d : Nat) :
    (buildNode P cD edges 0 v d).children = [] := rfl

theorem buildNode_children_succ (P : Provider) (cD : Nat) (edges : List (String × String))
    (f : Nat) (v : String) (d : Nat) :
    (buildNode P cD edges (f + 1) v d).children =
      (childIds edges v).map (fun c => buildNode P cD edges f c (d + 1)) := rfl

theorem mem_allNodes_buildNode (P : Provider) (cD : Nat) (edges : List (String × String)) :
    ∀ (f : Nat) (v : String) (d : Nat) (m : ExportNode),
      m ∈ allNodes (buildNode P cD edges f v d) →
      d ≤ m.depth ∧ m = buildNode P cD edges (f - (m.depth - d)) m.identifier m.depth := by
  intro f
  induction f with
  | zero =>
    intro v d m hm
    rw [mem_allNodes] at hm
    rcases hm with h | ⟨c, hc, -⟩
    · subst h
      refine ⟨le_refl _, ?_⟩
      simp [buildNode_depth, buildNode_identifier]
    · rw [buildNode_children_zero] at hc
      simp at hc
  | succ f ih =>
    intro v d m hm
    rw [mem_allNodes] at hm
    rcases hm with h | ⟨c, hc, hmc⟩
    · subst h
      refine ⟨by simp [buildNode_depth], ?_⟩
      simp [buildNode_depth, buildNode_identifier]
    · rw [buildNode_children_succ] at hc
      rcases List.mem_map.mp hc with ⟨c', hc', rfl⟩
      obtain ⟨hd, hEq⟩ := ih c' (d + 1) m hmc
      refine ⟨by omega, ?_⟩
      have harith : f + 1 - (m.depth - d) = f - (m.depth - (d + 1)) := by omega
      rw [harith]
      exact hEq

theorem traverse_tree_some {P : Provider} {cD tD : Nat} {root : String} {t : ExportNode}
    (h : (traverse P cD tD root).tree = some t) :
    root ∈ P.notes ∧
      t = buildNode P cD (finalState P tD root).edges (traversalFuel P) root 0 ∧
      (traverse P cD tD root).missingNotes = (finalState P tD root).missing := by
  by_cases hr : root ∈ P.notes
  · refine ⟨hr, ?_, ?_⟩
    · simp [traverse, hr] at h
      exact h.symm
    · simp [traverse, hr]
  · exfalso
    simp [traverse, hr] at h

/-- C2: every node of a produced export tree has includeContent true
exactly when its depth is within contentDepth, and carries content exactly
when includeContent is true — absent content is `none` and fetched content
is `some` of the note's text, so a fetched empty content stays
distinguishable from absent content. -/
theorem claim2_content_inclusion_policy (P : Provider) (contentDepth titleDepth : Nat)
    (root : String) (t : ExportNode)
    (ht : (traverse P contentDepth titleDepth root).tree = some t) :
    ∀ n ∈ allNodes t,
      (n.includeContent = true ↔ n.depth ≤ contentDepth) ∧
      n.content.isSome = n.includeContent ∧
      (n.includeContent = false → n.content = none) ∧
      (n.includeContent = true → n.content = some (P.content n.identifier)) := by
  obtain ⟨hr, htt, -⟩ := traverse_tree_some ht
  subst htt
  intro n hn
  obtain ⟨-, hEq⟩ := mem_allNodes_buildNode _ _ _ _ _ _ n hn
  have h1 : n.includeContent = decide (n.depth ≤ contentDepth) := by
    conv_lhs => rw [hEq]
    rw [buildNode_includeContent]
  have h2 : n.content = if n.depth ≤ contentDepth then some (P.content n.identifier) else none := by
    conv_lhs => rw [hEq]
    rw [buildNode_content]
  by_cases hd : n.depth ≤ contentDepth <;> simp [h1, h2, hd]

/-- Witness for C2 at the scenario traversal's root node. -/
theorem claim2_content_inclusion_policy_witness :
    (scenarioExpectedTree.includeContent = true ↔ scenarioExpectedTree.depth ≤ 1) ∧
    scenarioExpectedTree.content.isSome = scenarioExpectedTree.includeContent ∧
    (scenarioExpectedTree.includeContent = false → scenarioExpectedTree.content = none) ∧
    (scenarioExpectedTree.includeContent = true →
      scenarioExpectedTree.content = some (scenarioProvider.content scenarioExpectedTree.identifier)) :=
  claim2_content_inclusion_policy scenarioProvider 1 2 "root" scenarioExpectedTree rfl
    scenarioExpectedTree (mem_allNodes.mpr (Or.inl rfl))

theorem reachInB_refl (P : Provider) (n : Nat) (v : String) : reachInB P n v v = true := by
  cases n <;> simp [reachInB]

theorem reachInB_succ_of (P : Provider) {n : Nat} {u v : String}
    (h : reachInB P n u v = true) : reachInB P (n + 1) u v = true := by
  induction n generalizing u with
  | zero =>
    rw [reachInB] at h
    have huv : u = v := by simpa using h
    subst huv
    exact reachInB_refl P 1 u
  | succ n ih =>
    rw [reachInB] at h
    rw [reachInB]
    simp only [Bool.or_eq_true, List.any_eq_true, beq_iff_eq] at h ⊢
    rcases h with h | ⟨w, hw, hr⟩
    · exact Or.inl h
    · exact Or.inr ⟨w, hw, ih hr⟩

theorem reachInB_mono (P : Provider) {m n : Nat} (hmn : m ≤ n) {u v : String}
    (h : reachInB P m u v = true) : reachInB P n u v = true := by
  induction n with
  | zero =>
    have hm : m = 0 := by omega
    subst hm
    exact h
  | succ n ih =>
    rcases Nat.lt_or_ge m (n + 1) with hl | hg
    · exact reachInB_succ_of P (ih (by omega))
    · have hm : m = n + 1 := by omega
      subst hm
      exact h

theorem reachInB_cons (P : Provider) {n : Nat} {u w v : String}
    (hw : w ∈ resolvedRefs P u) (h : reachInB P n w v = true) :
    reachInB P (n + 1) u v = true := by
  rw [reachInB]
  simp only [Bool.or_eq_true, List.any_eq_true, beq_iff_eq]
  exact Or.inr ⟨w, hw, h⟩

theorem reachInB_snoc (P : Provider) : ∀ (n : Nat) (u v w : String),
    reachInB P n u v = true → w ∈ resolvedRefs P v →
    reachInB P (n + 1) u w = true := by
  intro n
  induction n with
  | zero =>
    intro u v w h hw
    rw [reachInB] at h
    have huv : u = v := by simpa using h
    subst huv
    exact reachInB_cons P hw (reachInB_refl P 0 w)
  | succ n ih =>
    intro u v w h hw
    rw [reachInB] at h
    simp only [Bool.or_eq_true, beq_iff_eq, List.any_eq_true] at h
    rcases h with h | ⟨x, hx, hr⟩
    · subst h
      exact reachInB_cons P hw (reachInB_refl P (n + 1) w)
    · exact reachInB_cons P hx (ih x v w hr hw)

theorem reachInB_rear (P : Provider) : ∀ (n : Nat) (u v : String),
    reachInB P (n + 1) u v = true →
    u = v ∨ ∃ w, reachInB P n u w = true ∧ v ∈ resolvedRefs P w := by
  intro n
  induction n with
  | zero =>
    intro u v h
    rw [reachInB] at h
    simp only [Bool.or_eq_true, beq_iff_eq, List.any_eq_true] at h
    rcases h with h | ⟨x, hx, hxv⟩
    · exact Or.inl h
    · rw [reachInB] at hxv
      have hxv' : x = v := by simpa using hxv
      subst hxv'
      exact Or.inr ⟨u, reachInB_refl P 0 u, hx⟩
  | succ n ih =>
    intro u v h
    rw [reachInB] at h
    simp only [Bool.or_eq_true, beq_iff_eq, List.any_eq_true] at h
    rcases h with h | ⟨x, hx, hxv⟩
    · exact Or.inl h
    · rcases ih x v hxv with h' | ⟨w, hw, hvw⟩
      · subst h'
        exact Or.inr ⟨u, reachInB_refl P (n + 1) u, hx⟩
      · exact Or.inr ⟨w, reachInB_cons P hx hw, hvw⟩

theorem processRef_of_none {P : Provider} {src : String} {d : Nat} {st : BFSState}
    {r : String} (h : P.resolve r src = none) :
    processRef P src d st r =
      if r ∈ st.missing then st else { st with missing := st.missing ++ [r] } := by
  simp [processRef, h]

theorem processRef_of_visited {P : Provider} {src : String} {d : Nat} {st : BFSState}
    {r t : String} (h : P.resolve r src = some t) (hv : t ∈ idsOf st) :
    processRef P src d st r = st := by
  simp [processRef, h, hv]

theorem processRef_of_new {P : Provider} {src : String} {d : Nat} {st : BFSState}
    {r t : String} (h : P.resolve r src = some t) (hv : t ∉ idsOf st) :
    processRef P src d st r =
      { st with
          order := st.order ++ [(t, d + 1)]
          edges := st.edges ++ [(src, t)]
          queue := st.queue ++ [(t, d + 1)] } := by
  simp [processRef, h, hv]

theorem foldl_processRef_spec (P : Provider) (src : String) (d : Nat) :
    ∀ (L : List String) (st : BFSState),
      ∃ new : List (String × Nat),
        (L.foldl (processRef P src d) st).order = st.order ++ new ∧
        (L.foldl (processRef P src d) st).queue = st.queue ++ new ∧
        (L.foldl (processRef P src d) st).edges =
          st.edges ++ new.map (fun x => (src, x.1)) ∧
        (∀ x ∈ new, x.2 = d + 1) ∧
        (new.map Prod.fst).Nodup ∧
        (∀ x ∈ new, x.1 ∉ idsOf st) ∧
        (∀ x ∈ new, ∃ r ∈ L, P.resolve r src = some x.1) := by
  intro L
  induction L with
  | nil =>
    intro st
    exact ⟨[], by simp, by simp, by simp, by simp, by simp, by simp, by simp⟩
  | cons r L ih =>
    intro st
    rw [List.foldl_cons]
    cases hres : P.resolve r src with
    | none =>
      rw [processRef_of_none hres]
      by_cases hm : r ∈ st.missing
      · rw [if_pos hm]
        obtain ⟨new, h1, h2, h3, h4, h5, h6, h7⟩ := ih st
        exact ⟨new, h1, h2, h3, h4, h5, h6,
          fun x hx => (h7 x hx).elim fun r' ⟨hr', hres'⟩ => ⟨r', List.mem_cons_of_mem _ hr', hres'⟩⟩
      · rw [if_neg hm]
        obtain ⟨new, h1, h2, h3, h4, h5, h6, h7⟩ := ih { st with missing := st.missing ++ [r] }
        exact ⟨new, h1, h2, h3, h4, h5, h6,
          fun x hx => (h7 x hx).elim fun r' ⟨hr', hres'⟩ => ⟨r', List.mem_cons_of_mem _ hr', hres'⟩⟩
    | some t =>
      by_cases hv : t ∈ idsOf st
      · rw [processRef_of_visited hres hv]
        obtain ⟨new, h1, h2, h3, h4, h5, h6, h7⟩ := ih st
        exact ⟨new, h1, h2, h3, h4, h5, h6,
          fun x hx => (h7 x hx).elim fun r' ⟨hr', hres'⟩ => ⟨r', List.mem_cons_of_mem _ hr', hres'⟩⟩
      · rw [processRef_of_new hres hv]
        obtain ⟨new, h1, h2, h3, h4, h5, h6, h7⟩ :=
          ih { st with
                order := st.order ++ [(t, d + 1)]
                edges := st.edges ++ [(src, t)]
                queue := st.queue ++ [(t, d + 1)] }
        have hids : idsOf { st with
            order := st.order ++ [(t, d + 1)]
            edges := st.edges ++ [(src, t)]
            queue := st.queue ++ [(t, d + 1)] } = idsOf st ++ [t] := by
          simp [idsOf]
        refine ⟨(t, d + 1) :: new, ?_, ?_, ?_, ?_, ?_, ?_, ?_⟩
        · rw [h1]; simp
        · rw [h2]; simp
        · rw [h3]; simp
        · intro x hx
          rcases List.mem_cons.mp hx with hx | hx
          · rw [hx]
          · exact h4 x hx
        · simp only [List.map_cons, List.nodup_cons]
          refine ⟨?_, h5⟩
          intro hmem
          rcases List.mem_map.mp hmem with ⟨x, hx, hfx⟩
          have := h6 x hx
          rw [hids] at this
          exact this (by simp [hfx])
        · intro x hx
          rcases List.mem_cons.mp hx with hx | hx
          · rw [hx]; exact hv
          · intro hmem
            have := h6 x hx
            rw [hids] at this
            exact this (by simp [hmem])
        · intro x hx
          rcases List.mem_cons.mp hx with hx | hx
          · exact ⟨r, List.mem_cons_self r L, by rw [hx]; exact hres⟩
          · obtain ⟨r', hr', hres'⟩ := h7 x hx
            exact ⟨r', List.mem_cons_of_mem _ hr', hres'⟩

theorem foldl_processRef_ids_mono (P : Provider) (src : String) (d : Nat)
    (L : List String) (st : BFSState) :
    ∀ v ∈ idsOf st, v ∈ idsOf (L.foldl (processRef P src d) st) := by
  intro v hv
  obtain ⟨new, h1, -⟩ := foldl_processRef_spec P src d L st
  unfold idsOf at hv ⊢
  rw [h1, List.map_append]
  exact List.mem_append_left _ hv

theorem foldl_processRef_targets (P : Provider) (src : String) (d : Nat) :
    ∀ (L : List String) (st : BFSState), ∀ r ∈ L, ∀ t, P.resolve r src = some t →
      t ∈ idsOf (L.foldl (processRef P src d) st) := by
  intro L
  induction L with
  | nil =>
    intro st r hr
    simp at hr
  | cons r' L ih =>
    intro st r hr t hres
    rw [List.foldl_cons]
    rcases List.mem_cons.mp hr with hr | hr
    · subst hr
      by_cases hv : t ∈ idsOf st
      · rw [processRef_of_visited hres hv]
        exact foldl_processRef_ids_mono P src d L st t hv
      · rw [processRef_of_new hres hv]
        apply foldl_processRef_ids_mono
        unfold idsOf
        simp
    · exact ih _ r hr t hres

theorem foldl_processRef_missing_spec (P : Provider) (src : String) (d : Nat) :
    ∀ (L : List String) (st : BFSState),
      ∃ m2 : List String,
        (L.foldl (processRef P src d) st).missing = st.missing ++ m2 ∧
        (∀ r ∈ m2, r ∈ L ∧ P.resolve r src = none) ∧
        (st.missing.Nodup → (L.foldl (processRef P src d) st).missing.Nodup) := by
  intro L
  induction L with
  | nil =>
    intro st
    exact ⟨[], by simp, by simp, fun h => by simpa using h⟩
  | cons r L ih =>
    intro st
    rw [List.foldl_cons]
    cases hres : P.resolve r src with
    | none =>
      rw [processRef_of_none hres]
      by_cases hm : r ∈ st.missing
      · rw [if_pos hm]
        obtain ⟨m2, h1, h2, h3⟩ := ih st
        exact ⟨m2, h1,
          fun x hx => ⟨List.mem_cons_of_mem _ (h2 x hx).1, (h2 x hx).2⟩, h3⟩
      · rw [if_neg hm]
        obtain ⟨m2, h1, h2, h3⟩ := ih { st with missing := st.missing ++ [r] }
        refine ⟨r :: m2, ?_, ?_, ?_⟩
        · rw [h1]
          simp
        · intro x hx
          rcases List.mem_cons.mp hx with hx | hx
          · subst hx
            exact ⟨List.mem_cons_self _ _, hres⟩
          · exact ⟨List.mem_cons_of_mem _ (h2 x hx).1, (h2 x hx).2⟩
        · intro hnd
          apply h3
          show (st.missing ++ [r]).Nodup
          refine List.nodup_append.mpr ⟨hnd, List.nodup_singleton r, ?_⟩
          intro a ha hb
          have hb' : a = r := by simpa using hb
          subst hb'
          exact hm ha
    | some t =>
      by_cases hv : t ∈ idsOf st
      · rw [processRef_of_visited hres hv]
        obtain ⟨m2, h1, h2, h3⟩ := ih st
        exact ⟨m2, h1,
          fun x hx => ⟨List.mem_cons_of_mem _ (h2 x hx).1, (h2 x hx).2⟩, h3⟩
      · rw [processRef_of_new hres hv]
        obtain ⟨m2, h1, h2, h3⟩ :=
          ih { st with
                order := st.order ++ [(t, d + 1)]
                edges := st.edges ++ [(src, t)]
                queue := st.queue ++ [(t, d + 1)] }
        exact ⟨m2, h1,
          fun x hx => ⟨List.mem_cons_of_mem _ (h2 x hx).1, (h2 x hx).2⟩, h3⟩

theorem foldl_processRef_missing_complete (P : Provider) (src : String) (d : Nat) :
    ∀ (L : List String) (st : BFSState), ∀ r ∈ L, P.resolve r src = none →
      r ∈ (L.foldl (processRef P src d) st).missing := by
  intro L
  induction L with
  | nil =>
    intro st r hr
    simp at hr
  | cons r' L ih =>
    intro st r hr hres
    rw [List.foldl_cons]
    rcases List.mem_cons.mp hr with hr | hr
    · subst hr
      rw [processRef_of_none hres]
      have hmem : r ∈ (if r ∈ st.missing then st
          else { st with missing := st.missing ++ [r] }).missing := by
        split
        · assumption
        · simp
      obtain ⟨m2, h1, -, -⟩ := foldl_processRef_missing_spec P src d L _
      rw [h1]
      exact List.mem_append_left _ hmem
    · exact ih _ r hr hres

theorem chain'_le_of_const (c : Nat) :
    ∀ (l : List (String × Nat)), (∀ x ∈ l, x.2 = c) →
      List.Chain' (fun a b : String × Nat => a.2 ≤ b.2) l := by
  intro l
  induction l with
  | nil =>
    intro h
    simp
  | cons a l ih =>
    intro h
    cases l with
    | nil => simp
    | cons b t =>
      rw [List.chain'_cons]
      constructor
      · rw [h a (List.mem_cons_self _ _),
          h b (List.mem_cons_of_mem _ (List.mem_cons_self _ _))]
      · exact ih fun x hx => h x (List.mem_cons_of_mem _ hx)

theorem chain'_step_of_const (c : Nat) :
    ∀ (l : List (String × Nat)), (∀ x ∈ l, x.2 = c) →
      List.Chain' (fun a b : String × Nat => b.2 ≤ a.2 + 1) l := by
  intro l
  induction l with
  | nil =>
    intro h
    simp
  | cons a l ih =>
    intro h
    cases l with
    | nil => simp
    | cons b t =>
      rw [List.chain'_cons]
      constructor
      · rw [h a (List.mem_cons_self _ _),
          h b (List.mem_cons_of_mem _ (List.mem_cons_self _ _))]
        omega
      · exact ih fun x hx => h x (List.mem_cons_of_mem _ hx)

theorem mem_of_mem_getLast? {l : List (String × Nat)} {x : String × Nat}
    (hx : x ∈ l.getLast?) : x ∈ l := by
  obtain ⟨h, hx'⟩ := List.mem_getLast?_eq_getLast hx
  rw [hx']
  exact List.getLast_mem h

theorem inv_queue_facts {P : Provider} {tD : Nat} {root : String} {st : BFSState}
    (hInv : TraversalInv P tD root st) {src : String} {d : Nat}
    {rest : List (String × Nat)} (hq : st.queue = (src, d) :: rest) :
    ∃ k, st.queue = st.order.drop k ∧ rest = st.order.drop (k + 1) ∧
      k + 1 ≤ st.order.length ∧
      (src, d) ∈ st.order ∧
      (∀ x ∈ st.order, x.2 ≤ d + 1) ∧
      (∀ x ∈ st.order, x ∉ st.queue → x.2 ≤ d) ∧
      (∀ x ∈ st.queue, d ≤ x.2) ∧
      (∀ x ∈ st.order.getLast?, d ≤ x.2) ∧
      (src, d) ∉ rest := by
  haveI : IsTrans (String × Nat) (fun a b : String × Nat => a.2 ≤ b.2) :=
    ⟨fun _ _ _ h1 h2 => le_trans h1 h2⟩
  obtain ⟨k, hk⟩ := hInv.queueSuffix
  have hpw : List.Pairwise (fun a b : String × Nat => a.2 ≤ b.2) st.order :=
    List.chain'_iff_pairwise.mp hInv.orderMono
  have hsdq : (src, d) ∈ st.queue := by
    rw [hq]
    exact List.mem_cons_self _ _
  have hA : (src, d) ∈ st.order := by
    rw [hk] at hsdq
    exact List.mem_of_mem_drop hsdq
  have hqne : st.order.drop k ≠ [] := by
    rw [← hk, hq]
    simp
  have hklt : k < st.order.length := by
    by_contra hcon
    push_neg at hcon
    exact hqne (List.drop_eq_nil_of_le hcon)
  have hrest : rest = st.order.drop (k + 1) := by
    have h1 : List.drop 1 (st.order.drop k) = st.order.drop (k + 1) := List.drop_drop 1 k _
    rw [← h1, ← hk, hq]
    rfl
  have hdecomp : st.order.take k ++ st.order.drop k = st.order := List.take_append_drop k _
  have hpw' : List.Pairwise (fun a b : String × Nat => a.2 ≤ b.2)
      (st.order.take k ++ st.order.drop k) := by
    rw [hdecomp]
    exact hpw
  have hcross := (List.pairwise_append.mp hpw').2.2
  have hsd_drop : (src, d) ∈ st.order.drop k := by
    rw [← hk]
    exact hsdq
  have hpwq : List.Pairwise (fun a b : String × Nat => a.2 ≤ b.2) st.queue := by
    rw [hk]
    exact List.Pairwise.sublist (List.drop_sublist k _) hpw
  have hFq : ∀ x ∈ st.queue, d ≤ x.2 := by
    intro x hx
    rw [hq] at hx hpwq
    rcases List.mem_cons.mp hx with hx | hx
    · rw [hx]
    · exact List.rel_of_pairwise_cons hpwq hx
  have hD1 : ∀ x ∈ st.order, x.2 ≤ d + 1 := by
    intro x hx
    rw [← hdecomp] at hx
    rcases List.mem_append.mp hx with hx | hx
    · have := hcross x hx (src, d) hsd_drop
      omega
    · have : x ∈ st.queue := by
        rw [hk]
        exact hx
      exact hInv.queueSpread x this (src, d) hsdq
  have hD2 : ∀ x ∈ st.order, x ∉ st.queue → x.2 ≤ d := by
    intro x hx hxq
    rw [← hdecomp] at hx
    rcases List.mem_append.mp hx with hx | hx
    · exact hcross x hx (src, d) hsd_drop
    · exfalso
      apply hxq
      rw [hk]
      exact hx
  have hLast : ∀ x ∈ st.order.getLast?, d ≤ x.2 := by
    intro x hx
    rw [← hdecomp, List.getLast?_append] at hx
    rw [← hk, hq] at hx
    have hx' : x ∈ (((src, d) :: rest).getLast?).or ((st.order.take k).getLast?) := hx
    have hcons : ((src, d) :: rest).getLast? = some (((src, d) :: rest).getLast (by simp)) := by
      rw [List.getLast?_eq_getLast]
    rw [hcons] at hx'
    have hx'' : x = ((src, d) :: rest).getLast (by simp) := by
      have := hx'
      simp [Option.or] at this
      exact this.symm
    have hmem : x ∈ (src, d) :: rest := by
      rw [hx'']
      exact List.getLast_mem _
    apply hFq
    rw [hq]
    exact hmem
  have hNR : (src, d) ∉ rest := by
    have hnd : st.order.Nodup := List.Nodup.of_map Prod.fst hInv.nodupIds
    have hndq : st.queue.Nodup := by
      rw [hk]
      exact List.Nodup.sublist (List.drop_sublist k _) hnd
    rw [hq] at hndq
    exact (List.nodup_cons.mp hndq).1
  exact ⟨k, hk, hrest, by omega, hA, hD1, hD2, hFq, hLast, hNR⟩

theorem bfsStep_inv_skip {P : Provider} {tD : Nat} {root : String} {st : BFSState}
    (hInv : TraversalInv P tD root st) {src : String} {d : Nat}
    {rest : List (String × Nat)} (hq : st.queue = (src, d) :: rest) (hd : tD ≤ d) :
    TraversalInv P tD root { st with queue := rest } := by
  obtain ⟨k, hk, hrest, hklen, hA, hD1, hD2, hFq, hLast, hNR⟩ := inv_queue_facts hInv hq
  have hrest_sub : ∀ x ∈ rest, x ∈ st.queue := by
    intro x hx
    rw [hq]
    exact List.mem_cons_of_mem _ hx
  refine
    { nodupIds := hInv.nodupIds
      queueSuffix := ⟨k + 1, hrest⟩
      orderMono := hInv.orderMono
      orderStep := hInv.orderStep
      queueSpread := fun x hx y hy => hInv.queueSpread x (hrest_sub x hx) y (hrest_sub y hy)
      headRoot := hInv.headRoot
      sound := hInv.sound
      depthLe := hInv.depthLe
      idsSub := hInv.idsSub
      missingNodup := hInv.missingNodup
      edgesOrder := hInv.edgesOrder
      edgesTargetNodup := hInv.edgesTargetNodup
      edgesTargetMem := hInv.edgesTargetMem
      rootNotTarget := hInv.rootNotTarget
      orderParent := hInv.orderParent
      processedChildren := ?_
      processedMissing := ?_
      missingSrc := ?_ }
  · intro x hx hxq hxd
    by_cases hxsd : x = (src, d)
    · exfalso
      rw [hxsd] at hxd
      omega
    · refine hInv.processedChildren x hx ?_ hxd
      intro hcon
      rw [hq] at hcon
      rcases List.mem_cons.mp hcon with hcon | hcon
      · exact hxsd hcon
      · exact hxq hcon
  · intro x hx hxq hxd
    by_cases hxsd : x = (src, d)
    · exfalso
      rw [hxsd] at hxd
      omega
    · refine hInv.processedMissing x hx ?_ hxd
      intro hcon
      rw [hq] at hcon
      rcases List.mem_cons.mp hcon with hcon | hcon
      · exact hxsd hcon
      · exact hxq hcon
  · intro r hr
    obtain ⟨x, hx1, hx2, hx3, hx4, hx5⟩ := hInv.missingSrc r hr
    refine ⟨x, hx1, ?_, hx3, hx4, hx5⟩
    intro hcon
    exact hx2 (hrest_sub x hcon)

theorem bfsStep_inv_expand {P : Provider} {tD : Nat} {root : String} {st : BFSState}
    (hResolve : ResolveClosed P) (hInv : TraversalInv P tD root st) {src : String}
    {d : Nat} {rest : List (String × Nat)} (hq : st.queue = (src, d) :: rest)
    (hd : d < tD) :
    TraversalInv P tD root (expandNote P src d { st with queue := rest }) := by
  haveI : IsTrans (String × Nat) (fun a b : String × Nat => a.2 ≤ b.2) :=
    ⟨fun _ _ _ h1 h2 => le_trans h1 h2⟩
  obtain ⟨k, hk, hrest, hklen, hA, hD1, hD2, hFq, hLast, hNR⟩ := inv_queue_facts hInv hq
  rw [expandNote]
  obtain ⟨new, hO, hQ, hE, hDp, hNd, hFresh, hProv⟩ :=
    foldl_processRef_spec P src d (P.refs src) { st with queue := rest }
  obtain ⟨m2, hM1, hM2, hM3⟩ :=
    foldl_processRef_missing_spec P src d (P.refs src) { st with queue := rest }
  have hO' : ((P.refs src).foldl (processRef P src d) { st with queue := rest }).order =
      st.order ++ new := hO
  have hQ' : ((P.refs src).foldl (processRef P src d) { st with queue := rest }).queue =
      rest ++ new := hQ
  have hE' : ((P.refs src).foldl (processRef P src d) { st with queue := rest }).edges =
      st.edges ++ new.map (fun x => (src, x.1)) := hE
  have hM1' : ((P.refs src).foldl (processRef P src d) { st with queue := rest }).missing =
      st.missing ++ m2 := hM1
  have hM3' : st.missing.Nodup →
      ((P.refs src).foldl (processRef P src d) { st with queue := rest }).missing.Nodup := hM3
  have hFresh' : ∀ x ∈ new, x.1 ∉ idsOf st := hFresh
  have hidsE : idsOf ((P.refs src).foldl (processRef P src d) { st with queue := rest }) =
      idsOf st ++ new.map Prod.fst := by
    unfold idsOf
    rw [hO', List.map_append]
  have heta : ∀ x ∈ new, (x.1, d + 1) = x := by
    intro x hx
    rw [← hDp x hx]
  have hsrc_ids : src ∈ idsOf st := List.mem_map_of_mem Prod.fst hA
  have hroot_order : (root, 0) ∈ st.order :=
    List.mem_of_mem_head? (Option.mem_def.mpr hInv.headRoot)
  have hroot_ids : root ∈ idsOf st := List.mem_map_of_mem Prod.fst hroot_order
  have hrest_sub : ∀ x ∈ rest, x ∈ st.queue := by
    intro x hx
    rw [hq]
    exact List.mem_cons_of_mem _ hx
  have hold_not_new : ∀ x ∈ st.order, x ∉ new := by
    intro x hx hcon
    exact hFresh' x hcon (List.mem_map_of_mem Prod.fst hx)
  have hD1' : ∀ x ∈ st.order ++ new, x.2 ≤ d + 1 := by
    intro x hx
    rcases List.mem_append.mp hx with hx | hx
    · exact hD1 x hx
    · rw [hDp x hx]
  refine
    { nodupIds := ?_
      queueSuffix := ?_
      orderMono := ?_
      orderStep := ?_
      queueSpread := ?_
      headRoot := ?_
      sound := ?_
      depthLe := ?_
      idsSub := ?_
      processedChildren := ?_
      processedMissing := ?_
      missingNodup := hM3' hInv.missingNodup
      missingSrc := ?_
      edgesOrder := ?_
      edgesTargetNodup := ?_
      edgesTargetMem := ?_
      rootNotTarget := ?_
      orderParent := ?_ }
  -- nodupIds
  · rw [hidsE]
    refine List.nodup_append.mpr ⟨hInv.nodupIds, hNd, ?_⟩
    intro a ha hb
    rcases List.mem_map.mp hb with ⟨x, hx, hfx⟩
    exact hFresh' x hx (hfx ▸ ha)
  -- queueSuffix
  · refine ⟨k + 1, ?_⟩
    rw [hQ', hO', List.drop_append_of_le_length hklen, ← hrest]
  -- orderMono
  · rw [hO']
    refine List.chain'_append.mpr ⟨hInv.orderMono, ?_, ?_⟩
    · exact chain'_le_of_const (d + 1) new hDp
    · intro x hx y hy
      have hxo : x ∈ st.order := mem_of_mem_getLast? hx
      have hyn : y ∈ new := List.mem_of_mem_head? hy
      have := hD1 x hxo
      rw [hDp y hyn]
      omega
  -- orderStep
  · rw [hO']
    refine List.chain'_append.mpr ⟨hInv.orderStep, ?_, ?_⟩
    · exact chain'_step_of_const (d + 1) new hDp
    · intro x hx y hy
      have hyn : y ∈ new := List.mem_of_mem_head? hy
      have := hLast x hx
      rw [hDp y hyn]
      omega
  -- queueSpread
  · rw [hQ']
    intro x hx y hy
    rcases List.mem_append.mp hx with hx | hx <;> rcases List.mem_append.mp hy with hy | hy
    · exact hInv.queueSpread x (hrest_sub x hx) y (hrest_sub y hy)
    · have h1 : x.2 ≤ d + 1 := hInv.queueSpread x (hrest_sub x hx) (src, d) (by rw [hq]; simp)
      rw [hDp y hy]
      omega
    · have h1 : d ≤ y.2 := hFq y (hrest_sub y hy)
      rw [hDp x hx]
      omega
    · rw [hDp x hx, hDp y hy]
      omega
  -- headRoot
  · rw [hO', List.head?_append, hInv.headRoot]
    rfl
  -- sound
  · intro x hx
    rw [hO'] at hx
    rcases List.mem_append.mp hx with hx | hx
    · exact hInv.sound x hx
    · obtain ⟨r, hr, hres⟩ := hProv x hx
      have hmem : x.1 ∈ resolvedRefs P src := List.mem_filterMap.mpr ⟨r, hr, hres⟩
      have hreach := reachInB_snoc P d root src x.1 (hInv.sound (src, d) hA) hmem
      rw [hDp x hx]
      exact hreach
  -- depthLe
  · intro x hx
    rw [hO'] at hx
    rcases List.mem_append.mp hx with hx | hx
    · exact hInv.depthLe x hx
    · rw [hDp x hx]
      omega
  -- idsSub
  · intro v hv
    rw [hidsE] at hv
    rcases List.mem_append.mp hv with hv | hv
    · exact hInv.idsSub v hv
    · rcases List.mem_map.mp hv with ⟨x, hx, hfx⟩
      obtain ⟨r, hr, hres⟩ := hProv x hx
      rw [← hfx]
      exact hResolve r src x.1 hres
  -- processedChildren
  · intro x hx hxq hxd
    rw [hO'] at hx
    rw [hQ'] at hxq
    rcases List.mem_append.mp hx with hxo | hxn
    · by_cases hxsd : x = (src, d)
      · subst hxsd
        intro r hr t hres
        have htids := foldl_processRef_targets P src d (P.refs src)
          { st with queue := rest } r hr t hres
        rw [hidsE] at htids
        have hpair : ∃ y ∈ st.order ++ new, y.1 = t := by
          rcases List.mem_append.mp htids with h | h
          · rcases List.mem_map.mp h with ⟨y, hy, hfy⟩
            exact ⟨y, List.mem_append_left _ hy, hfy⟩
          · rcases List.mem_map.mp h with ⟨y, hy, hfy⟩
            exact ⟨y, List.mem_append_right _ hy, hfy⟩
        obtain ⟨y, hy, hfy⟩ := hpair
        refine ⟨y.2, hD1' y hy, ?_⟩
        rw [hO']
        have : (t, y.2) = y := by
          rw [← hfy]
        rw [this]
        exact hy
      · have hxrest : x ∉ rest := fun hcon => hxq (List.mem_append_left _ hcon)
        have hxqold : x ∉ st.queue := by
          rw [hq]
          intro hcon
          rcases List.mem_cons.mp hcon with hcon | hcon
          · exact hxsd hcon
          · exact hxrest hcon
        intro r hr t hres
        obtain ⟨d', hd', hmem⟩ := hInv.processedChildren x hxo hxqold hxd r hr t hres
        refine ⟨d', hd', ?_⟩
        rw [hO']
        exact List.mem_append_left _ hmem
    · exfalso
      exact hxq (List.mem_append_right _ hxn)
  -- processedMissing
  · intro x hx hxq hxd
    rw [hO'] at hx
    rw [hQ'] at hxq
    rcases List.mem_append.mp hx with hxo | hxn
    · by_cases hxsd : x = (src, d)
      · subst hxsd
        intro r hr hres
        exact foldl_processRef_missing_complete P src d (P.refs src)
          { st with queue := rest } r hr hres
      · have hxrest : x ∉ rest := fun hcon => hxq (List.mem_append_left _ hcon)
        have hxqold : x ∉ st.queue := by
          rw [hq]
          intro hcon
          rcases List.mem_cons.mp hcon with hcon | hcon
          · exact hxsd hcon
          · exact hxrest hcon
        intro r hr hres
        have := hInv.processedMissing x hxo hxqold hxd r hr hres
        rw [hM1']
        exact List.mem_append_left _ this
    · exfalso
      exact hxq (List.mem_append_right _ hxn)
  -- missingSrc
  · intro r hr
    rw [hM1'] at hr
    rcases List.mem_append.mp hr with hr | hr
    · obtain ⟨x, hx1, hx2, hx3, hx4, hx5⟩ := hInv.missingSrc r hr
      refine ⟨x, ?_, ?_, hx3, hx4, hx5⟩
      · rw [hO']
        exact List.mem_append_left _ hx1
      · rw [hQ']
        intro hcon
        rcases List.mem_append.mp hcon with hcon | hcon
        · exact hx2 (hrest_sub x hcon)
        · exact hold_not_new x hx1 hcon
    · obtain ⟨hrrefs, hrres⟩ := hM2 r hr
      refine ⟨(src, d), ?_, ?_, hd, hrrefs, hrres⟩
      · rw [hO']
        exact List.mem_append_left _ hA
      · rw [hQ']
        intro hcon
        rcases List.mem_append.mp hcon with hcon | hcon
        · exact hNR hcon
        · exact hold_not_new (src, d) hA hcon
  -- edgesOrder
  · intro e he
    rw [hE'] at he
    rcases List.mem_append.mp he with he | he
    · obtain ⟨d0, h1, h2⟩ := hInv.edgesOrder e he
      refine ⟨d0, ?_, ?_⟩ <;> rw [hO']
      · exact List.mem_append_left _ h1
      · exact List.mem_append_left _ h2
    · rcases List.mem_map.mp he with ⟨x, hx, hfx⟩
      refine ⟨d, ?_, ?_⟩ <;> rw [hO']
      · rw [← hfx]
        exact List.mem_append_left _ hA
      · rw [← hfx]
        have : ((src, x.1) : String × String).2 = x.1 := rfl
        rw [this]
        rw [heta x hx]
        exact List.mem_append_right _ hx
  -- edgesTargetNodup
  · rw [hE', List.map_append]
    have hmm : (new.map (fun x => (src, x.1))).map Prod.snd = new.map Prod.fst := by
      rw [List.map_map]
      rfl
    rw [hmm]
    refine List.nodup_append.mpr ⟨hInv.edgesTargetNodup, hNd, ?_⟩
    intro a ha hb
    rcases List.mem_map.mp ha with ⟨e, he, hfe⟩
    rcases List.mem_map.mp hb with ⟨x, hx, hfx⟩
    have h1 : a ∈ idsOf st := hfe ▸ hInv.edgesTargetMem e he
    exact hFresh' x hx (hfx ▸ h1)
  -- edgesTargetMem
  · intro e he
    rw [hE'] at he
    rw [hidsE]
    rcases List.mem_append.mp he with he | he
    · exact List.mem_append_left _ (hInv.edgesTargetMem e he)
    · rcases List.mem_map.mp he with ⟨x, hx, hfx⟩
      apply List.mem_append_right
      rw [← hfx]
      exact List.mem_map_of_mem Prod.fst hx
  -- rootNotTarget
  · rw [hE', List.map_append]
    intro hcon
    rcases List.mem_append.mp hcon with hcon | hcon
    · exact hInv.rootNotTarget hcon
    · rcases List.mem_map.mp hcon with ⟨e, he, hfe⟩
      rcases List.mem_map.mp he with ⟨x, hx, hfx⟩
      apply hFresh' x hx
      have : x.1 = root := by
        rw [← hfe, ← hfx]
      rw [this]
      exact hroot_ids
  -- orderParent
  · intro x hx
    rw [hO'] at hx
    rcases List.mem_append.mp hx with hx | hx
    · rcases hInv.orderParent x hx with h | ⟨s, d0, h1, h2, h3⟩
      · exact Or.inl h
      · refine Or.inr ⟨s, d0, ?_, ?_, h3⟩
        · rw [hE']
          exact List.mem_append_left _ h1
        · rw [hO']
          exact List.mem_append_left _ h2
    · refine Or.inr ⟨src, d, ?_, ?_, hDp x hx⟩
      · rw [hE']
        apply List.mem_append_right
        exact List.mem_map_of_mem (fun y => (src, y.1)) hx
      · rw [hO']
        exact List.mem_append_left _ hA

theorem bfsLoop_inv {P : Provider} {tD : Nat} {root : String}
    (hResolve : ResolveClosed P) :
    ∀ (fuel : Nat) (st : BFSState), TraversalInv P tD root st →
      TraversalInv P tD root (bfsLoop P tD fuel st) := by
  intro fuel
  induction fuel with
  | zero =>
    intro st h
    rw [bfsLoop]
    exact h
  | succ fuel ih =>
    intro st h
    rw [bfsLoop]
    split
    · exact h
    · next src d rest heq =>
      split
      · next htd => exact ih _ (bfsStep_inv_skip h heq htd)
      · next htd => exact ih _ (bfsStep_inv_expand hResolve h heq (by omega))

theorem bfsLoop_queue_nil {P : Provider} {tD : Nat} {root : String}
    (hResolve : ResolveClosed P) :
    ∀ (fuel : Nat) (st : BFSState), TraversalInv P tD root st →
      st.queue.length + (P.notes.length - (idsOf st).length) ≤ fuel →
      (bfsLoop P tD fuel st).queue = [] := by
  intro fuel
  induction fuel with
  | zero =>
    intro st hInv hm
    rw [bfsLoop]
    have hz : st.queue.length = 0 := by omega
    exact List.length_eq_zero.mp hz
  | succ fuel ih =>
    intro st hInv hm
    rw [bfsLoop]
    split
    · next heq => exact heq
    · next src d rest heq =>
      have hlen : st.queue.length = rest.length + 1 := by
        rw [heq]
        simp
      split
      · next htd =>
        apply ih _ (bfsStep_inv_skip hInv heq htd)
        show rest.length + (P.notes.length - (idsOf st).length) ≤ fuel
        omega
      · next htd =>
        have hd : d < tD := by omega
        have hInv' := bfsStep_inv_expand hResolve hInv heq hd
        apply ih _ hInv'
        obtain ⟨new, hO, hQ, hE, hDp, hNd, hFresh, hProv⟩ :=
          foldl_processRef_spec P src d (P.refs src) { st with queue := rest }
        have hQ' : (expandNote P src d { st with queue := rest }).queue = rest ++ new := hQ
        have hO' : (expandNote P src d { st with queue := rest }).order =
            st.order ++ new := hO
        have hidslen : (idsOf (expandNote P src d { st with queue := rest })).length =
            (idsOf st).length + new.length := by
          unfold idsOf
          rw [hO']
          simp
        have hidsle : (idsOf (expandNote P src d { st with queue := rest })).length ≤
            P.notes.length :=
          (List.subperm_of_subset hInv'.nodupIds fun v hv => hInv'.idsSub v hv).length_le
        rw [hQ', List.length_append, hidslen]
        rw [hidslen] at hidsle
        omega

theorem initState_inv {P : Provider} {tD : Nat} {root : String} (hroot : root ∈ P.notes) :
    TraversalInv P tD root (initState root) := by
  refine
    { nodupIds := by simp [initState, idsOf]
      queueSuffix := ⟨0, by simp [initState]⟩
      orderMono := by simp [initState]
      orderStep := by simp [initState]
      queueSpread := ?_
      headRoot := rfl
      sound := ?_
      depthLe := ?_
      idsSub := ?_
      processedChildren := ?_
      processedMissing := ?_
      missingNodup := by simp [initState]
      missingSrc := by simp [initState]
      edgesOrder := by simp [initState]
      edgesTargetNodup := by simp [initState]
      edgesTargetMem := by simp [initState]
      rootNotTarget := by simp [initState]
      orderParent := ?_ }
  · intro x hx y hy
    simp [initState] at hx hy
    rw [hx, hy]
    omega
  · intro x hx
    simp [initState] at hx
    rw [hx]
    exact reachInB_refl P 0 root
  · intro x hx
    simp [initState] at hx
    rw [hx]
    exact Nat.zero_le tD
  · intro v hv
    simp [initState, idsOf] at hv
    rw [hv]
    exact hroot
  · intro x hx hxq
    exfalso
    simp [initState] at hx hxq
    exact hxq hx
  · intro x hx hxq
    exfalso
    simp [initState] at hx hxq
    exact hxq hx
  · intro x hx
    simp [initState] at hx
    exact Or.inl (by rw [hx])

theorem finalState_inv {P : Provider} {tD : Nat} {root : String}
    (hResolve : ResolveClosed P) (hroot : root ∈ P.notes) :
    TraversalInv P tD root (finalState P tD root) :=
  bfsLoop_inv hResolve (traversalFuel P) (initState root) (initState_inv hroot)

theorem finalState_queue_nil {P : Provider} {tD : Nat} {root : String}
    (hResolve : ResolveClosed P) (hroot : root ∈ P.notes) :
    (finalState P tD root).queue = [] := by
  apply bfsLoop_queue_nil hResolve (traversalFuel P) (initState root) (initState_inv hroot)
  have h1 : (initState root).queue.length = 1 := rfl
  have h2 : (idsOf (initState root)).length = 1 := rfl
  rw [h1, h2]
  unfold traversalFuel
  omega

theorem resolveClosed_if_contains (P : Provider)
    (h : ∀ r s, P.resolve r s = if P.notes.contains r then some r else none) :
    ResolveClosed P := by
  intro r s t hres
  rw [h] at hres
  split at hres
  · next hc =>
    obtain rfl := Option.some.inj hres
    simpa using hc
  · exact Option.noConfusion hres

/-- C5: after a completed traversal the missing-notes list is
duplicate-free and contains exactly the reference strings that failed to
resolve while some discovered note at a depth below the title depth was
expanded; references that resolve (to fresh or to already-visited notes)
are never recorded. -/
theorem claim5_missing_notes (P : Provider) (contentDepth titleDepth : Nat) (root : String)
    (hResolve : ResolveClosed P) (hroot : root ∈ P.notes) :
    (getMissingNotes P contentDepth titleDepth root).Nodup ∧
    ∀ r, r ∈ getMissingNotes P contentDepth titleDepth root ↔
      ∃ u d, (u, d) ∈ (finalState P titleDepth root).order ∧ d < titleDepth ∧
        r ∈ P.refs u ∧ P.resolve r u = none := by
  have hInv := @finalState_inv P titleDepth root hResolve hroot
  have hnil := @finalState_queue_nil P titleDepth root hResolve hroot
  have hmiss : getMissingNotes P contentDepth titleDepth root =
      (finalState P titleDepth root).missing := by
    simp [getMissingNotes, traverse, hroot]
  constructor
  · rw [hmiss]
    exact hInv.missingNodup
  · intro r
    rw [hmiss]
    constructor
    · intro hr
      obtain ⟨x, hx1, hx2, hx3, hx4, hx5⟩ := hInv.missingSrc r hr
      exact ⟨x.1, x.2, hx1, hx3, hx4, hx5⟩
    · rintro ⟨u, du, hu1, hu2, hu3, hu4⟩
      exact hInv.processedMissing (u, du) hu1 (by rw [hnil]; exact List.not_mem_nil _)
        hu2 r hu3 hu4

/-- Witness for C5: in the scenario graph the string "missing" is reported
exactly because the expanded root fails to resolve it. -/
theorem claim5_missing_notes_witness :
    (getMissingNotes scenarioProvider 1 2 "root").Nodup ∧
    ("missing" ∈ getMissingNotes scenarioProvider 1 2 "root" ↔
      ∃ u d, (u, d) ∈ (finalState scenarioProvider 2 "root").order ∧ d < 2 ∧
        "missing" ∈ scenarioProvider.refs u ∧ scenarioProvider.resolve "missing" u = none) :=
  ⟨(claim5_missing_notes scenarioProvider 1 2 "root"
      (resolveClosed_if_contains scenarioProvider fun r s => rfl) (by decide)).1,
   (claim5_missing_notes scenarioProvider 1 2 "root"
      (resolveClosed_if_contains scenarioProvider fun r s => rfl) (by decide)).2 "missing"⟩

theorem order_depth_unique {l : List (String × Nat)} (h : (l.map Prod.fst).Nodup)
    {v : String} {d1 d2 : Nat} (h1 : (v, d1) ∈ l) (h2 : (v, d2) ∈ l) : d1 = d2 := by
  have heq := List.inj_on_of_nodup_map h h1 h2 rfl
  exact congrArg Prod.snd heq

theorem bfs_completeness {P : Provider} {tD : Nat} {root : String}
    (hResolve : ResolveClosed P) (hroot : root ∈ P.notes) :
    ∀ d, d ≤ tD → ∀ v, reachInB P d root v = true →
      ∃ d' ≤ d, (v, d') ∈ (finalState P tD root).order := by
  have hInv := @finalState_inv P tD root hResolve hroot
  have hnil := @finalState_queue_nil P tD root hResolve hroot
  have hroot_order : (root, 0) ∈ (finalState P tD root).order :=
    List.mem_of_mem_head? (Option.mem_def.mpr hInv.headRoot)
  intro d
  induction d with
  | zero =>
    intro hd v hv
    rw [reachInB] at hv
    have hrv : root = v := by simpa using hv
    subst hrv
    exact ⟨0, le_refl 0, hroot_order⟩
  | succ d ih =>
    intro hd v hv
    rcases reachInB_rear P d root v hv with h | ⟨w, hw, hvw⟩
    · subst h
      exact ⟨0, by omega, hroot_order⟩
    · obtain ⟨dw, hdw, hwmem⟩ := ih (by omega) w hw
      rcases List.mem_filterMap.mp hvw with ⟨r, hr, hres⟩
      obtain ⟨d', hd', hmem⟩ := hInv.processedChildren (w, dw) hwmem
        (by rw [hnil]; exact List.not_mem_nil _) (by omega) r hr v hres
      exact ⟨d', by omega, hmem⟩

theorem bfs_minimality {P : Provider} {tD : Nat} {root : String}
    (hResolve : ResolveClosed P) (hroot : root ∈ P.notes) :
    ∀ v dv, (v, dv) ∈ (finalState P tD root).order →
      ∀ d', d' < dv → reachInB P d' root v = false := by
  have hInv := @finalState_inv P tD root hResolve hroot
  intro v dv hmem d' hlt
  by_contra hcon
  have htrue : reachInB P d' root v = true := by
    cases hre : reachInB P d' root v
    · exact absurd hre hcon
    · rfl
  have hdvle : dv ≤ tD := hInv.depthLe (v, dv) hmem
  obtain ⟨d'', hd'', hmem''⟩ :=
    @bfs_completeness P tD root hResolve hroot d' (by omega) v htrue
  have heq := order_depth_unique hInv.nodupIds hmem hmem''
  omega

theorem mem_childIds_iff {edges : List (String × String)} {v c : String} :
    c ∈ childIds edges v ↔ (v, c) ∈ edges := by
  unfold childIds
  constructor
  · intro h
    rcases List.mem_map.mp h with ⟨e, he, hfe⟩
    rcases List.mem_filter.mp he with ⟨hee, hef⟩
    have h1 : e.1 = v := by simpa using hef
    have h2 : e = (v, c) := Prod.ext h1 hfe
    rw [← h2]
    exact hee
  · intro h
    apply List.mem_map.mpr
    refine ⟨(v, c), List.mem_filter.mpr ⟨h, by simp⟩, rfl⟩

theorem allNodes_eq (n : ExportNode) :
    allNodes n = n :: n.children.attach.flatMap (fun x => allNodes x.val) := by
  cases n with
  | mk i t d ic c ch => rw [allNodes]

theorem sizeOf_child_lt {t c : ExportNode} (h : c ∈ t.children) : sizeOf c < sizeOf t := by
  cases t with
  | mk i ti d ic co ch =>
    have h1 : sizeOf c < sizeOf ch := List.sizeOf_lt_of_mem h
    simp only [ExportNode.mk.sizeOf_spec]
    omega

theorem mem_allNodes_child_aux : ∀ (n : Nat) (t : ExportNode), sizeOf t ≤ n →
    ∀ m c, m ∈ allNodes t → c ∈ m.children → c ∈ allNodes t := by
  intro n
  induction n with
  | zero =>
    intro t ht
    exfalso
    cases t
    simp [ExportNode.mk.sizeOf_spec] at ht
  | succ n ih =>
    intro t ht m c hm hc
    rw [mem_allNodes] at hm
    rcases hm with rfl | ⟨ch, hch, hmch⟩
    · exact mem_allNodes.mpr (Or.inr ⟨c, hc, mem_allNodes.mpr (Or.inl rfl)⟩)
    · have hsz : sizeOf ch ≤ n := by
        have := sizeOf_child_lt hch
        omega
      exact mem_allNodes.mpr (Or.inr ⟨ch, hch, ih ch hsz m c hmch hc⟩)

theorem mem_allNodes_child {t m c : ExportNode} (hm : m ∈ allNodes t)
    (hc : c ∈ m.children) : c ∈ allNodes t :=
  mem_allNodes_child_aux (sizeOf t) t (le_refl _) m c hm hc

theorem chain_step_depth_bound :
    ∀ (l : List (String × Nat)) (a : String × Nat),
      List.Chain' (fun p q : String × Nat => q.2 ≤ p.2 + 1) l → l.head? = some a →
      ∀ x ∈ l, x.2 ≤ a.2 + (l.length - 1) := by
  intro l
  induction l with
  | nil =>
    intro a hc hh x hx
    simp at hx
  | cons b l ih =>
    intro a hc hh x hx
    have hb : b = a := by simpa using hh
    subst hb
    rcases List.mem_cons.mp hx with rfl | hx
    · omega
    · cases l with
      | nil => simp at hx
      | cons c t =>
        rw [List.chain'_cons] at hc
        have h1 := hc.1
        have h2 := ih c hc.2 rfl x hx
        simp only [List.length_cons] at h2 ⊢
        omega

theorem buildNode_mem_order {P : Provider} {cD : Nat} {edges : List (String × String)}
    {order : List (String × Nat)}
    (hedges : ∀ e ∈ edges, ∃ d0, (e.1, d0) ∈ order ∧ (e.2, d0 + 1) ∈ order)
    (hnodup : (order.map Prod.fst).Nodup) :
    ∀ (f : Nat) (v : String) (d : Nat), (v, d) ∈ order →
      ∀ m ∈ allNodes (buildNode P cD edges f v d), (m.identifier, m.depth) ∈ order := by
  intro f
  induction f with
  | zero =>
    intro v d hvd m hm
    rw [mem_allNodes] at hm
    rcases hm with rfl | ⟨c, hc, -⟩
    · rw [buildNode_identifier, buildNode_depth]
      exact hvd
    · rw [buildNode_children_zero] at hc
      simp at hc
  | succ f ih =>
    intro v d hvd m hm
    rw [mem_allNodes] at hm
    rcases hm with rfl | ⟨c, hc, hmc⟩
    · rw [buildNode_identifier, buildNode_depth]
      exact hvd
    · rw [buildNode_children_succ] at hc
      rcases List.mem_map.mp hc with ⟨c', hc', rfl⟩
      have hvc : (v, c') ∈ edges := mem_childIds_iff.mp hc'
      obtain ⟨d0, hd0v, hd0c⟩ := hedges (v, c') hvc
      have hd0 : d0 = d := order_depth_unique hnodup hd0v hvd
      have hco : (c', d + 1) ∈ order := by
        have h := hd0c
        rw [hd0] at h
        exact h
      exact ih c' (d + 1) hco m hmc

theorem treeIds_zero_eq (P : Provider) (cD : Nat) (edges : List (String × String))
    (v : String) (d : Nat) : treeIds (buildNode P cD edges 0 v d) = [v] := by
  unfold treeIds
  rw [allNodes_eq, buildNode_children_zero]
  simp [buildNode_identifier]

theorem treeIds_succ_mem {P : Provider} {cD : Nat} {edges : List (String × String)}
    {f : Nat} {v : String} {d : Nat} {x : String} :
    x ∈ treeIds (buildNode P cD edges (f + 1) v d) ↔
      x = v ∨ ∃ c ∈ childIds edges v, x ∈ treeIds (buildNode P cD edges f c (d + 1)) := by
  unfold treeIds
  constructor
  · intro hx
    rcases List.mem_map.mp hx with ⟨m, hm, rfl⟩
    rw [mem_allNodes] at hm
    rcases hm with rfl | ⟨c0, hc0, hmc⟩
    · exact Or.inl (buildNode_identifier P cD edges (f + 1) v d)
    · rw [buildNode_children_succ] at hc0
      rcases List.mem_map.mp hc0 with ⟨c, hc, rfl⟩
      exact Or.inr ⟨c, hc, List.mem_map_of_mem _ hmc⟩
  · intro h
    rcases h with rfl | ⟨c, hc, hx⟩
    · apply List.mem_map.mpr
      exact ⟨buildNode P cD edges (f + 1) x d, mem_allNodes.mpr (Or.inl rfl),
        buildNode_identifier P cD edges (f + 1) x d⟩
    · rcases List.mem_map.mp hx with ⟨m, hm, rfl⟩
      apply List.mem_map.mpr
      refine ⟨m, ?_, rfl⟩
      apply mem_allNodes.mpr
      refine Or.inr ⟨buildNode P cD edges f c (d + 1), ?_, hm⟩
      rw [buildNode_children_succ]
      exact List.mem_map_of_mem _ hc

theorem subtree_ids_depth {P : Provider} {cD : Nat} {edges : List (String × String)}
    {order : List (String × Nat)}
    (hedges : ∀ e ∈ edges, ∃ d0, (e.1, d0) ∈ order ∧ (e.2, d0 + 1) ∈ order)
    (hnodup : (order.map Prod.fst).Nodup) :
    ∀ (f : Nat) (v : String) (d : Nat), (v, d) ∈ order →
      ∀ x ∈ treeIds (buildNode P cD edges f v d),
        x = v ∨ ∃ dx, (x, dx) ∈ order ∧ d < dx := by
  intro f
  induction f with
  | zero =>
    intro v d hvd x hx
    rw [treeIds_zero_eq] at hx
    simp at hx
    exact Or.inl hx
  | succ f ih =>
    intro v d hvd x hx
    rcases treeIds_succ_mem.mp hx with rfl | ⟨c, hc, hx'⟩
    · exact Or.inl rfl
    · have hvc : (v, c) ∈ edges := mem_childIds_iff.mp hc
      obtain ⟨d0, h1, h2⟩ := hedges (v, c) hvc
      have hd0 : d0 = d := order_depth_unique hnodup h1 hvd
      have h2' : (c, d + 1) ∈ order := by
        have h := h2
        rw [hd0] at h
        exact h
      rcases ih c (d + 1) h2' x hx' with rfl | ⟨dx, hdx, hlt⟩
      · exact Or.inr ⟨d + 1, h2', by omega⟩
      · exact Or.inr ⟨dx, hdx, by omega⟩

theorem subtree_disjoint {P : Provider} {cD : Nat} {edges : List (String × String)}
    {order : List (String × Nat)}
    (hedges : ∀ e ∈ edges, ∃ d0, (e.1, d0) ∈ order ∧ (e.2, d0 + 1) ∈ order)
    (hnodup : (order.map Prod.fst).Nodup)
    (htargets : (edges.map Prod.snd).Nodup) :
    ∀ (f : Nat) (c1 c2 : String) (d : Nat), c1 ≠ c2 →
      (c1, d) ∈ order → (c2, d) ∈ order →
      ∀ x, x ∈ treeIds (buildNode P cD edges f c1 d) →
        x ∈ treeIds (buildNode P cD edges f c2 d) → False := by
  intro f
  induction f with
  | zero =>
    intro c1 c2 d hne h1 h2 x hx1 hx2
    rw [treeIds_zero_eq] at hx1 hx2
    simp at hx1 hx2
    subst hx1
    exact hne hx2
  | succ f ih =>
    intro c1 c2 d hne h1 h2 x hx1 hx2
    have s1 := subtree_ids_depth hedges hnodup (f + 1) c1 d h1 x hx1
    have s2 := subtree_ids_depth hedges hnodup (f + 1) c2 d h2 x hx2
    rcases s1 with rfl | ⟨dx1, hdx1, hlt1⟩
    · rcases s2 with h | ⟨dx2, hdx2, hlt2⟩
      · exact hne h
      · have := order_depth_unique hnodup h1 hdx2
        omega
    · rcases s2 with rfl | ⟨dx2, hdx2, hlt2⟩
      · have := order_depth_unique hnodup h2 hdx1
        omega
      · have hxne1 : x ≠ c1 := by
          intro hcon
          subst hcon
          have := order_depth_unique hnodup h1 hdx1
          omega
        have hxne2 : x ≠ c2 := by
          intro hcon
          subst hcon
          have := order_depth_unique hnodup h2 hdx2
          omega
        rcases treeIds_succ_mem.mp hx1 with h | ⟨c1', hc1', hx1'⟩
        · exact hxne1 h
        rcases treeIds_succ_mem.mp hx2 with h | ⟨c2', hc2', hx2'⟩
        · exact hxne2 h
        have he1 : (c1, c1') ∈ edges := mem_childIds_iff.mp hc1'
        have he2 : (c2, c2') ∈ edges := mem_childIds_iff.mp hc2'
        have hcne : c1' ≠ c2' := by
          intro hcon
          subst hcon
          have heq := List.inj_on_of_nodup_map htargets he1 he2 rfl
          exact hne (congrArg Prod.fst heq)
        obtain ⟨d1, hd1a, hd1b⟩ := hedges _ he1
        have hd1 : d1 = d := order_depth_unique hnodup hd1a h1
        have ho1 : (c1', d + 1) ∈ order := by
          have h := hd1b
          rw [hd1] at h
          exact h
        obtain ⟨d2, hd2a, hd2b⟩ := hedges _ he2
        have hd2 : d2 = d := order_depth_unique hnodup hd2a h2
        have ho2 : (c2', d + 1) ∈ order := by
          have h := hd2b
          rw [hd2] at h
          exact h
        exact ih c1' c2' (d + 1) hcne ho1 ho2 x hx1' hx2'

theorem treeIds_succ_eq (P : Provider) (cD : Nat) (edges : List (String × String))
    (f : Nat) (v : String) (d : Nat) :
    treeIds (buildNode P cD edges (f + 1) v d) =
      v :: (childIds edges v).flatMap
        (fun c => treeIds (buildNode P cD edges f c (d + 1))) := by
  unfold treeIds
  rw [allNodes_eq, List.map_cons, buildNode_identifier]
  congr 1
  rw [buildNode_children_succ]
  simp [List.map_flatMap, List.flatMap_map, treeIds]

theorem treeIds_nodup {P : Provider} {cD : Nat} {edges : List (String × String)}
    {order : List (String × Nat)}
    (hedges : ∀ e ∈ edges, ∃ d0, (e.1, d0) ∈ order ∧ (e.2, d0 + 1) ∈ order)
    (hnodup : (order.map Prod.fst).Nodup)
    (htargets : (edges.map Prod.snd).Nodup) :
    ∀ (f : Nat) (v : String) (d : Nat), (v, d) ∈ order →
      (treeIds (buildNode P cD edges f v d)).Nodup := by
  intro f
  induction f with
  | zero =>
    intro v d hvd
    rw [treeIds_zero_eq]
    simp
  | succ f ih =>
    intro v d hvd
    rw [treeIds_succ_eq]
    rw [List.nodup_cons]
    constructor
    · intro hcon
      rcases List.mem_flatMap.mp hcon with ⟨c, hc, hvc⟩
      have he : (v, c) ∈ edges := mem_childIds_iff.mp hc
      obtain ⟨d0, hd0a, hd0b⟩ := hedges _ he
      have hd0 : d0 = d := order_depth_unique hnodup hd0a hvd
      have ho : (c, d + 1) ∈ order := by
        have h := hd0b
        rw [hd0] at h
        exact h
      rcases subtree_ids_depth hedges hnodup f c (d + 1) ho v hvc with h | ⟨dx, hdx, hlt⟩
      · subst h
        have := order_depth_unique hnodup hvd ho
        omega
      · have := order_depth_unique hnodup hvd hdx
        omega
    · apply List.nodup_flatMap.mpr
      constructor
      · intro c hc
        have he := mem_childIds_iff.mp hc
        obtain ⟨d0, hd0a, hd0b⟩ := hedges _ he
        have hd0 : d0 = d := order_depth_unique hnodup hd0a hvd
        have ho : (c, d + 1) ∈ order := by
          have h := hd0b
          rw [hd0] at h
          exact h
        exact ih c (d + 1) ho
      · have hcnodup : (childIds edges v).Nodup := by
          unfold childIds
          exact List.Nodup.sublist (List.Sublist.map _ (List.filter_sublist _)) htargets
        refine List.Pairwise.imp_of_mem ?_ hcnodup
        intro a b ha hb hab
        have hea := mem_childIds_iff.mp ha
        have heb := mem_childIds_iff.mp hb
        obtain ⟨da, hdaa, hdab⟩ := hedges _ hea
        have hda : da = d := order_depth_unique hnodup hdaa hvd
        have hoa : (a, d + 1) ∈ order := by
          have h := hdab
          rw [hda] at h
          exact h
        obtain ⟨db, hdba, hdbb⟩ := hedges _ heb
        have hdb : db = d := order_depth_unique hnodup hdba hvd
        have hob : (b, d + 1) ∈ order := by
          have h := hdbb
          rw [hdb] at h
          exact h
        intro x hx1 hx2
        exact subtree_disjoint hedges hnodup htargets f a b (d + 1) hab hoa hob x hx1 hx2

theorem order_depth_bound {P : Provider} {tD : Nat} {root : String}
    (hResolve : ResolveClosed P) (hroot : root ∈ P.notes) :
    ∀ x ∈ (finalState P tD root).order, x.2 + 1 ≤ P.notes.length := by
  have hInv := @finalState_inv P tD root hResolve hroot
  intro x hx
  have hb := chain_step_depth_bound _ (root, 0) hInv.orderStep hInv.headRoot x hx
  have hlen : (finalState P tD root).order.length ≤ P.notes.length := by
    have h1 : (idsOf (finalState P tD root)).length ≤ P.notes.length :=
      (List.subperm_of_subset hInv.nodupIds fun v hv => hInv.idsSub v hv).length_le
    have h2 : (idsOf (finalState P tD root)).length =
        (finalState P tD root).order.length := by
      unfold idsOf
      rw [List.length_map]
    omega
  have hpos : 1 ≤ (finalState P tD root).order.length := by
    cases h : (finalState P tD root).order with
    | nil =>
      rw [h] at hx
      simp at hx
    | cons a l => simp
  simp only [] at hb
  omega

theorem order_mem_tree {P : Provider} {tD : Nat} {root : String} (cD : Nat)
    (hResolve : ResolveClosed P) (hroot : root ∈ P.notes) :
    ∀ (dv : Nat) (v : String), (v, dv) ∈ (finalState P tD root).order →
      ∃ m ∈ allNodes (buildNode P cD (finalState P tD root).edges (traversalFuel P) root 0),
        m.identifier = v ∧ m.depth = dv := by
  have hInv := @finalState_inv P tD root hResolve hroot
  have hroot_order : (root, 0) ∈ (finalState P tD root).order :=
    List.mem_of_mem_head? (Option.mem_def.mpr hInv.headRoot)
  intro dv
  induction dv using Nat.strong_induction_on with
  | _ dv ih =>
    intro v hv
    rcases hInv.orderParent (v, dv) hv with hvr | ⟨s, d0, he, hso, hd⟩
    · have hvr' : v = root := hvr
      rw [hvr'] at hv ⊢
      have hdv : dv = 0 := order_depth_unique hInv.nodupIds hv hroot_order
      subst hdv
      exact ⟨buildNode P cD (finalState P tD root).edges (traversalFuel P) root 0,
        mem_allNodes.mpr (Or.inl rfl),
        buildNode_identifier P cD _ _ root 0, buildNode_depth P cD _ _ root 0⟩
    · have hd' : dv = d0 + 1 := hd
      obtain ⟨m, hmtree, hmid, hmdep⟩ := ih d0 (by omega) s hso
      obtain ⟨hge, hEq⟩ :=
        mem_allNodes_buildNode P cD (finalState P tD root).edges (traversalFuel P)
          root 0 m hmtree
      rw [hmid, hmdep] at hEq
      have hdb : d0 + 1 ≤ P.notes.length := order_depth_bound hResolve hroot (s, d0) hso
      have hfsucc : traversalFuel P - (d0 - 0) = (traversalFuel P - d0 - 1) + 1 := by
        unfold traversalFuel
        omega
      rw [hfsucc] at hEq
      have hvc : v ∈ childIds (finalState P tD root).edges s := mem_childIds_iff.mpr he
      have hchild : buildNode P cD (finalState P tD root).edges
          (traversalFuel P - d0 - 1) v (d0 + 1) ∈ m.children := by
        rw [hEq, buildNode_children_succ]
        exact List.mem_map_of_mem _ hvc
      refine ⟨buildNode P cD (finalState P tD root).edges
          (traversalFuel P - d0 - 1) v (d0 + 1),
        mem_allNodes_child hmtree hchild,
        buildNode_identifier P cD _ _ v (d0 + 1), ?_⟩
      rw [buildNode_depth]
      omega

/-- C4: on a well-formed acyclic link graph, the export tree contains no
identifier twice, contains exactly the notes reachable from the root
within titleDepth reference-hops, and places every node at the depth equal
to its shortest-hop distance from the root (reachable at that depth,
unreachable at every smaller depth) — so a note reachable along several
paths appears only once, at its shallowest BFS position. -/
theorem claim4_bfs_shortest_path (P : Provider) (contentDepth titleDepth : Nat)
    (root : String) (t : ExportNode)
    (hResolve : ResolveClosed P) (hroot : root ∈ P.notes) (_hacyclic : AcyclicB P)
    (ht : (traverse P contentDepth titleDepth root).tree = some t) :
    (treeIds t).Nodup ∧
    (∀ v, v ∈ treeIds t ↔ reachInB P titleDepth root v = true) ∧
    (∀ m ∈ allNodes t, reachInB P m.depth root m.identifier = true ∧
      ∀ d' < m.depth, reachInB P d' root m.identifier = false) := by
  obtain ⟨-, htt, -⟩ := traverse_tree_some ht
  subst htt
  have hInv := @finalState_inv P titleDepth root hResolve hroot
  have hroot_order : (root, 0) ∈ (finalState P titleDepth root).order :=
    List.mem_of_mem_head? (Option.mem_def.mpr hInv.headRoot)
  have hedges := hInv.edgesOrder
  have hnodup : ((finalState P titleDepth root).order.map Prod.fst).Nodup := hInv.nodupIds
  refine ⟨?_, ?_, ?_⟩
  · exact treeIds_nodup hedges hnodup hInv.edgesTargetNodup (traversalFuel P) root 0
      hroot_order
  · intro v
    constructor
    · intro hv
      unfold treeIds at hv
      rcases List.mem_map.mp hv with ⟨m, hm, rfl⟩
      have hmo := buildNode_mem_order hedges hnodup (traversalFuel P) root 0
        hroot_order m hm
      have h1 : reachInB P m.depth root m.identifier = true := hInv.sound _ hmo
      have h2 : m.depth ≤ titleDepth := hInv.depthLe _ hmo
      exact reachInB_mono P h2 h1
    · intro hv
      obtain ⟨d', hd', hmem⟩ :=
        bfs_completeness hResolve hroot titleDepth (le_refl _) v hv
      obtain ⟨m, hmtree, hmid, hmdep⟩ :=
        order_mem_tree contentDepth hResolve hroot d' v hmem
      unfold treeIds
      exact List.mem_map.mpr ⟨m, hmtree, hmid⟩
  · intro m hm
    have hmo := buildNode_mem_order hedges hnodup (traversalFuel P) root 0
      hroot_order m hm
    refine ⟨hInv.sound _ hmo, ?_⟩
    intro d' hd'
    exact bfs_minimality hResolve hroot m.identifier m.depth hmo d' hd'

/-- Witness for C4 on the acyclic test graph parent → child1, child2;
child1 → grandchild. -/
theorem claim4_bfs_shortest_path_witness :
    (treeIds treeExpectedTree).Nodup ∧
    (∀ v, v ∈ treeIds treeExpectedTree ↔ reachInB treeProvider 2 "parent" v = true) ∧
    (∀ m ∈ allNodes treeExpectedTree,
      reachInB treeProvider m.depth "parent" m.identifier = true ∧
      ∀ d' < m.depth, reachInB treeProvider d' "parent" m.identifier = false) :=
  claim4_bfs_shortest_path treeProvider 1 2 "parent" treeExpectedTree
    (resolveClosed_if_contains treeProvider fun r s => rfl) (by decide)
    (by unfold AcyclicB; decide) rfl

end SmartExport
